import Mathlib

/-!
Shallow embedding of the natch native core (src/native/chex_fine/src/column.cpp
and src/native/chex_fine/src/select.cpp): a typed columnar buffer with scalar
and bulk append NIFs, and a column-major to row-major materializer.

Modelling conventions:
* Machine integers are `Nat`/`Int` with explicit reduction modulo `2^w` where a
  C++ conversion narrows; `uint64_t` parameters are `Nat` (range hypotheses
  appear in theorems where the width matters), `int64_t` parameters are `Int`.
* Doubles are modelled by their IEEE-754 bit patterns (`Nat`, 64 bits); floats
  by 32-bit patterns.  The C++ code performs no floating arithmetic: the only
  float operations are `static_cast<float>(double)` (round to nearest, ties to
  even) and the exact widening `float -> double`, both defined below on bit
  patterns.
* A NIF call's result is an `Outcome`: `ok` (normal return), `exc` (a C++
  exception propagates, wrapped by the NIF layer into an Erlang error), or
  `undef` (undefined behavior: an unchecked `static_pointer_cast` to the wrong
  dynamic column type, or an out-of-bounds `std::vector::operator[]`).
* Erlang terms produced by the materializer are modelled by `Term`
  (`enif_make_uint64`, `enif_make_int64`, `enif_make_double`, binaries), and a
  row map is modelled by the key/value association list the code passes to
  `enif_make_map_from_arrays`, in that order.
-/

namespace Natch

/-- Result of a NIF call: normal return, C++ exception (reported as an error to
the caller), or undefined behavior. -/
inductive Outcome (α : Type) : Type
  | ok (a : α)
  | exc
  | undef
deriving DecidableEq, Repr

/-- Dynamic column object (`clickhouse::Column` subclasses).  One constructor
per concrete column type the code dispatches on; `otherCol` stands for any
other dynamic column type (e.g. an array or nullable column), carrying only its
row count.  Unsigned and date columns store raw `Nat` values, signed columns
store `Int`, float columns store IEEE bit patterns, string columns store byte
sequences, and the DateTime column stores the `time_t` (64-bit signed) values
handed to `Append` (storage width per the spec's data model: 64-bit seconds,
the column object itself being external library state). -/
inductive Column : Type
  | uint8Col (vs : List Nat)
  | uint16Col (vs : List Nat)
  | uint32Col (vs : List Nat)
  | uint64Col (vs : List Nat)
  | int8Col (vs : List Int)
  | int16Col (vs : List Int)
  | int32Col (vs : List Int)
  | int64Col (vs : List Int)
  | float32Col (vs : List Nat)
  | float64Col (vs : List Nat)
  | stringCol (vs : List (List Nat))
  | dateCol (vs : List Nat)
  | datetimeCol (vs : List Int)
  | otherCol (n : Nat)
deriving DecidableEq, Repr

/-- `Column::Size()` — number of stored rows. -/
def Column.size : Column → Nat
  | .uint8Col vs => vs.length
  | .uint16Col vs => vs.length
  | .uint32Col vs => vs.length
  | .uint64Col vs => vs.length
  | .int8Col vs => vs.length
  | .int16Col vs => vs.length
  | .int32Col vs => vs.length
  | .int64Col vs => vs.length
  | .float32Col vs => vs.length
  | .float64Col vs => vs.length
  | .stringCol vs => vs.length
  | .dateCol vs => vs.length
  | .datetimeCol vs => vs.length
  | .otherCol n => n

/-- Conversion `uint64_t -> time_t` (64-bit signed), as in
`static_cast<time_t>(timestamp)`: values below `2^63` are preserved, larger
ones wrap modulo `2^64` into the negative range. -/
def i64ofU64 (v : Nat) : Int :=
  if v < 2 ^ 63 then (v : Int) else (v : Int) - 2 ^ 64

/-- Conversion `time_t -> ErlNifUInt64`, the implicit integral conversion
performed when a `time_t` is passed to `enif_make_uint64`: reduction modulo
`2^64`. -/
def u64ofI64 (t : Int) : Nat :=
  (t % (2 ^ 64 : Int)).toNat

/-- C++ narrowing conversion of a signed 64-bit value to a signed `w`-bit
value: the unique value congruent modulo `2^w` that is representable in `w`
bits (two's complement). -/
def sCast (w : Nat) (z : Int) : Int :=
  (z + 2 ^ (w - 1)) % (2 ^ w : Int) - 2 ^ (w - 1)

/-- Round-half-to-even of `n / 2^k` (the IEEE default rounding used by
`static_cast<float>` on a nonnegative significand), for `k ≥ 1`. -/
def rndShift (n k : Nat) : Nat :=
  let q := n / 2 ^ k
  let r := n % 2 ^ k
  let h := 2 ^ (k - 1)
  if h < r ∨ (r = h ∧ q % 2 = 1) then q + 1 else q

/-- Exact widening of an IEEE binary32 bit pattern to the binary64 bit pattern
of the same value (`float` passed as a `double` argument). -/
def f32ToF64bits (b : Nat) : Nat :=
  let s := b / 2 ^ 31 % 2
  let e := b / 2 ^ 23 % 2 ^ 8
  let m := b % 2 ^ 23
  if e = 255 then
    s * 2 ^ 63 + 2047 * 2 ^ 52 + m * 2 ^ 29
  else if e = 0 then
    if m = 0 then s * 2 ^ 63
    else
      let k := Nat.log2 m
      s * 2 ^ 63 + (k + 874) * 2 ^ 52 + (m - 2 ^ k) * 2 ^ (52 - k)
  else
    s * 2 ^ 63 + (e + 896) * 2 ^ 52 + m * 2 ^ 29

/-- IEEE binary64 to binary32 conversion with round to nearest, ties to even
(`static_cast<float>(double)`), on bit patterns. -/
def f64ToF32bits (b : Nat) : Nat :=
  let s := b / 2 ^ 63 % 2
  let e := b / 2 ^ 52 % 2 ^ 11
  let m := b % 2 ^ 52
  if e = 2047 then
    if m = 0 then s * 2 ^ 31 + 255 * 2 ^ 23
    else s * 2 ^ 31 + 255 * 2 ^ 23 + Nat.lor (m / 2 ^ 29) (2 ^ 22)
  else if e = 0 then s * 2 ^ 31
  else if e ≤ 896 then s * 2 ^ 31 + rndShift (2 ^ 52 + m) (926 - e)
  else if 1151 ≤ e then s * 2 ^ 31 + 255 * 2 ^ 23
  else
    let mr := rndShift m 29
    if mr = 2 ^ 23 then
      if e - 896 + 1 = 255 then s * 2 ^ 31 + 255 * 2 ^ 23
      else s * 2 ^ 31 + (e - 896 + 1) * 2 ^ 23
    else s * 2 ^ 31 + (e - 896) * 2 ^ 23 + mr

/-!
Scalar append NIFs (column.cpp).  Each one performs
`std::static_pointer_cast<ColumnT>(col_res->ptr)` — an unchecked downcast whose
behavior is undefined when the column's dynamic type is not `ColumnT` — and
then `Append`s the value.  The `catch` block never fires on the matching-type
path (the underlying appends do not throw on these inputs), so the modelled
outcomes are `ok` on a matching column and `undef` otherwise.
-/

/-- `column_uint64_append` — append one `uint64_t` to a `ColumnUInt64`. -/
def column_uint64_append (col : Column) (v : Nat) : Outcome Column :=
  match col with
  | .uint64Col vs => .ok (.uint64Col (vs ++ [v]))
  | _ => (.undef)

/-- `column_int64_append` — append one `int64_t` to a `ColumnInt64`. -/
def column_int64_append (col : Column) (v : Int) : Outcome Column :=
  match col with
  | .int64Col vs => .ok (.int64Col (vs ++ [v]))
  | _ => (.undef)

/-- `column_string_append` — append one byte string to a `ColumnString`. -/
def column_string_append (col : Column) (v : List Nat) : Outcome Column :=
  match col with
  | .stringCol vs => .ok (.stringCol (vs ++ [v]))
  | _ => (.undef)

/-- `column_float64_append` — append one `double` (bit pattern) to a
`ColumnFloat64`. -/
def column_float64_append (col : Column) (v : Nat) : Outcome Column :=
  match col with
  | .float64Col vs => .ok (.float64Col (vs ++ [v]))
  | _ => (.undef)

/-- `column_datetime_append` — append one `uint64_t` timestamp, converted by
`static_cast<time_t>`, to a `ColumnDateTime`. -/
def column_datetime_append (col : Column) (v : Nat) : Outcome Column :=
  match col with
  | .datetimeCol vs => .ok (.datetimeCol (vs ++ [i64ofU64 v]))
  | _ => (.undef)

/-- `column_size` — `col_res->ptr->Size()`; total, no cast involved. -/
def column_size (col : Column) : Nat :=
  col.size

/-!
Bulk append NIFs (column.cpp).  Each one casts once (same unchecked
`static_pointer_cast`) and appends every element of the decoded vector in
order; the narrowing paths apply a `static_cast` to the target width on every
element.  With a vector argument the loop body is the corresponding scalar
`Append`, so a mismatched dynamic type is undefined behavior as above.
-/

/-- `column_uint64_append_bulk` — append a `std::vector<uint64_t>` in order. -/
def column_uint64_append_bulk (col : Column) (vs : List Nat) : Outcome Column :=
  match col with
  | .uint64Col ws => .ok (.uint64Col (ws ++ vs))
  | _ => (.undef)

/-- `column_int64_append_bulk` — append a `std::vector<int64_t>` in order. -/
def column_int64_append_bulk (col : Column) (vs : List Int) : Outcome Column :=
  match col with
  | .int64Col ws => .ok (.int64Col (ws ++ vs))
  | _ => (.undef)

/-- `column_string_append_bulk` — append a `std::vector<std::string>` in
order. -/
def column_string_append_bulk (col : Column) (vs : List (List Nat)) :
    Outcome Column :=
  match col with
  | .stringCol ws => .ok (.stringCol (ws ++ vs))
  | _ => (.undef)

/-- `column_float64_append_bulk` — append a `std::vector<double>` in order. -/
def column_float64_append_bulk (col : Column) (vs : List Nat) : Outcome Column :=
  match col with
  | .float64Col ws => .ok (.float64Col (ws ++ vs))
  | _ => (.undef)

/-- `column_datetime_append_bulk` — append timestamps, each converted by
`static_cast<time_t>`. -/
def column_datetime_append_bulk (col : Column) (vs : List Nat) : Outcome Column :=
  match col with
  | .datetimeCol ws => .ok (.datetimeCol (ws ++ vs.map i64ofU64))
  | _ => (.undef)

/-- `column_date_append_bulk` — append day counts, each narrowed by
`static_cast<uint16_t>` and stored raw (`AppendRaw`). -/
def column_date_append_bulk (col : Column) (vs : List Nat) : Outcome Column :=
  match col with
  | .dateCol ws => .ok (.dateCol (ws ++ vs.map (· % 2 ^ 16)))
  | _ => (.undef)

/-- `column_uint8_append_bulk` — append `uint64_t` carriers, each narrowed by
`static_cast<uint8_t>` (low 8 bits kept). -/
def column_uint8_append_bulk (col : Column) (vs : List Nat) : Outcome Column :=
  match col with
  | .uint8Col ws => .ok (.uint8Col (ws ++ vs.map (· % 2 ^ 8)))
  | _ => (.undef)

/-- `column_uint16_append_bulk` — append `uint64_t` carriers, each narrowed by
`static_cast<uint16_t>`. -/
def column_uint16_append_bulk (col : Column) (vs : List Nat) : Outcome Column :=
  match col with
  | .uint16Col ws => .ok (.uint16Col (ws ++ vs.map (· % 2 ^ 16)))
  | _ => (.undef)

/-- `column_uint32_append_bulk` — append `uint64_t` carriers, each narrowed by
`static_cast<uint32_t>`. -/
def column_uint32_append_bulk (col : Column) (vs : List Nat) : Outcome Column :=
  match col with
  | .uint32Col ws => .ok (.uint32Col (ws ++ vs.map (· % 2 ^ 32)))
  | _ => (.undef)

/-- `column_int8_append_bulk` — append `int64_t` carriers, each narrowed by
`static_cast<int8_t>`. -/
def column_int8_append_bulk (col : Column) (vs : List Int) : Outcome Column :=
  match col with
  | .int8Col ws => .ok (.int8Col (ws ++ vs.map (sCast 8)))
  | _ => (.undef)

/-- `column_int16_append_bulk` — append `int64_t` carriers, each narrowed by
`static_cast<int16_t>`. -/
def column_int16_append_bulk (col : Column) (vs : List Int) : Outcome Column :=
  match col with
  | .int16Col ws => .ok (.int16Col (ws ++ vs.map (sCast 16)))
  | _ => (.undef)

/-- `column_int32_append_bulk` — append `int64_t` carriers, each narrowed by
`static_cast<int32_t>`. -/
def column_int32_append_bulk (col : Column) (vs : List Int) : Outcome Column :=
  match col with
  | .int32Col ws => .ok (.int32Col (ws ++ vs.map (sCast 32)))
  | _ => (.undef)

/-- `column_float32_append_bulk` — append `double` carriers, each rounded by
`static_cast<float>`. -/
def column_float32_append_bulk (col : Column) (vs : List Nat) : Outcome Column :=
  match col with
  | .float32Col ws => .ok (.float32Col (ws ++ vs.map f64ToF32bits))
  | _ => (.undef)

/-- `column_create` — resolve a ClickHouse type-name string to a fresh empty
column.  The factory `CreateColumnByType` is external library code; the
supported scalar kinds are modelled from the spec's TypeRegistry (§4.1): a
name matching a supported kind yields an empty column of that kind, anything
else makes the wrapper throw (`exc`). -/
def column_create (typeName : String) : Outcome Column :=
  if typeName = "UInt8" then .ok (.uint8Col [])
  else if typeName = "UInt16" then .ok (.uint16Col [])
  else if typeName = "UInt32" then .ok (.uint32Col [])
  else if typeName = "UInt64" then .ok (.uint64Col [])
  else if typeName = "Int8" then .ok (.int8Col [])
  else if typeName = "Int16" then .ok (.int16Col [])
  else if typeName = "Int32" then .ok (.int32Col [])
  else if typeName = "Int64" then .ok (.int64Col [])
  else if typeName = "Float32" then .ok (.float32Col [])
  else if typeName = "Float64" then .ok (.float64Col [])
  else if typeName = "String" then .ok (.stringCol [])
  else if typeName = "Date" then .ok (.dateCol [])
  else if typeName = "DateTime" then .ok (.datetimeCol [])
  else .exc

/-!
Materializer (select.cpp).  `block_to_maps_impl` loops over the block's
columns, dispatches once per column on the dynamic column type (`col->As<T>`),
and pushes one converted Erlang term per row index `0 .. row_count-1`; a column
whose dynamic type matches none of the thirteen dispatch arms contributes an
empty value vector.  It then builds one map per row index from
`col_data[c][r]`.  `Column*::At` is bounds-checked in the library
(`std::vector::at`, throws `std::out_of_range`), while the row-building read
`col_data[c][r]` uses `std::vector::operator[]` (out of bounds is undefined
behavior).
-/

/-- Erlang term produced for one cell: `enif_make_uint64`, `enif_make_int64`,
`enif_make_double` (on a binary64 bit pattern), or a binary. -/
inductive Term : Type
  | uintT (n : Nat)
  | intT (z : Int)
  | floatT (bits : Nat)
  | binT (bs : List Nat)
deriving DecidableEq, Repr

/-- One materialized row: the key/value pairs handed to
`enif_make_map_from_arrays`, keys (column-name atoms) in declared column
order. -/
abbrev Row : Type := List (String × Term)

/-- A result block (`clickhouse::Block`): named columns in declared order plus
the producer-established row count reported by `GetRowCount()`. -/
structure Block : Type where
  cols : List (String × Column)
  rowCount : Nat
deriving DecidableEq, Repr

/-- Fallible left-to-right traversal, mirroring the C++ loops: apply `f` to
each element in order and collect the results, aborting at the first
failure. -/
def omap (f : α → Option β) : List α → Option (List β)
  | [] => some []
  | a :: l =>
      match f a with
      | none => none
      | some b =>
          match omap f l with
          | none => none
          | some bs => some (b :: bs)

/-- Extraction loop of `block_to_maps_impl` for one column: the dispatch arm
matching the dynamic column type converts the cell at every index
`0 .. rowCount-1` (`none` models the `std::out_of_range` throw from `At` when
the column is shorter than `rowCount`); a column matching no arm contributes an
empty value vector. -/
def colTerms (col : Column) (rowCount : Nat) : Option (List Term) :=
  match col with
  | .uint64Col vs =>
      if rowCount ≤ vs.length then some ((vs.take rowCount).map .uintT) else none
  | .uint32Col vs =>
      if rowCount ≤ vs.length then some ((vs.take rowCount).map .uintT) else none
  | .uint16Col vs =>
      if rowCount ≤ vs.length then some ((vs.take rowCount).map .uintT) else none
  | .uint8Col vs =>
      if rowCount ≤ vs.length then some ((vs.take rowCount).map .uintT) else none
  | .int64Col vs =>
      if rowCount ≤ vs.length then some ((vs.take rowCount).map .intT) else none
  | .int32Col vs =>
      if rowCount ≤ vs.length then some ((vs.take rowCount).map .intT) else none
  | .int16Col vs =>
      if rowCount ≤ vs.length then some ((vs.take rowCount).map .intT) else none
  | .int8Col vs =>
      if rowCount ≤ vs.length then some ((vs.take rowCount).map .intT) else none
  | .float64Col vs =>
      if rowCount ≤ vs.length then some ((vs.take rowCount).map .floatT) else none
  | .float32Col vs =>
      if rowCount ≤ vs.length then
        some ((vs.take rowCount).map (fun b => .floatT (f32ToF64bits b)))
      else none
  | .stringCol vs =>
      if rowCount ≤ vs.length then some ((vs.take rowCount).map .binT) else none
  | .datetimeCol vs =>
      if rowCount ≤ vs.length then
        some ((vs.take rowCount).map (fun t => .uintT (u64ofI64 t)))
      else none
  | .dateCol vs =>
      if rowCount ≤ vs.length then some ((vs.take rowCount).map .uintT) else none
  | .otherCol _ => some []

/-- Column loop of `block_to_maps_impl`: collect `(name, extracted values)` per
column in declared order; `none` models an `At` throw escaping the loop. -/
def extractAll (cols : List (String × Column)) (rowCount : Nat) :
    Option (List (String × List Term)) :=
  omap (fun p => (colTerms p.2 rowCount).map (fun ts => (p.1, ts))) cols

/-- Row loop of `block_to_maps_impl`: for each row index `r`, read
`col_data[c][r]` for every column in declared order; `none` models the
out-of-bounds `operator[]` read (undefined behavior). -/
def buildRows (cd : List (String × List Term)) (rowCount : Nat) :
    Option (List Row) :=
  omap (fun r => omap (fun p => (p.2.get? r).map (fun t => (p.1, t))) cd)
    (List.range rowCount)

/-- `block_to_maps_impl`: early return on a zero-row block, then extraction,
then row building.  Duplicate column names would make
`enif_make_map_from_arrays` fail with its return value ignored, leaving the
map term uninitialized — undefined behavior, modelled by the `Nodup` guard. -/
def blockToMaps (b : Block) : Outcome (List Row) :=
  if b.rowCount = 0 then .ok []
  else
    match extractAll b.cols b.rowCount with
    | none => .exc
    | some cd =>
        if (b.cols.map Prod.fst).Nodup then
          match buildRows cd b.rowCount with
          | none => (.undef)
          | some rows => .ok rows
        else (.undef)

/-- Callback loop of `client_select`: each arriving block is converted by
`block_to_maps_impl` and its rows are appended to the accumulated `all_maps`
vector; an exception or undefined behavior inside the callback aborts the
call. -/
def clientSelectLoop (blocks : List Block) (allMaps : List Row) :
    Outcome (List Row) :=
  match blocks with
  | [] => .ok allMaps
  | b :: rest =>
      match blockToMaps b with
      | .ok rows => clientSelectLoop rest (allMaps ++ rows)
      | .exc => .exc
      | .undef => (.undef)

/-- `client_select`: run the callback over the blocks in arrival order and
return the whole accumulated row list in one final term. -/
def clientSelect (blocks : List Block) : Outcome (List Row) :=
  clientSelectLoop blocks []

/-- Sizes of the `all_maps` accumulator of `client_select` observed after each
processed block (the per-callback buffered-row counts; the trace stops if a
block's conversion aborts). -/
def clientSelectTrace (blocks : List Block) (allMaps : List Row) : List Nat :=
  match blocks with
  | [] => []
  | b :: rest =>
      match blockToMaps b with
      | .ok rows =>
          (allMaps ++ rows).length :: clientSelectTrace rest (allMaps ++ rows)
      | _ => []

/-- Buffered-row counts of a `client_select` call, one entry per processed
block. -/
def bufferSizes (blocks : List Block) : List Nat :=
  clientSelectTrace blocks []

/-- Specification-side cell extraction: the term the materializer is expected
to produce for column `col` at row index `i`, reading the column directly
(row-major view).  `none` when the index is out of range or the column kind is
unsupported. -/
def cellTerm (col : Column) (i : Nat) : Option Term :=
  match col with
  | .uint8Col vs => (vs.get? i).map .uintT
  | .uint16Col vs => (vs.get? i).map .uintT
  | .uint32Col vs => (vs.get? i).map .uintT
  | .uint64Col vs => (vs.get? i).map .uintT
  | .int8Col vs => (vs.get? i).map .intT
  | .int16Col vs => (vs.get? i).map .intT
  | .int32Col vs => (vs.get? i).map .intT
  | .int64Col vs => (vs.get? i).map .intT
  | .float32Col vs => (vs.get? i).map (fun b => .floatT (f32ToF64bits b))
  | .float64Col vs => (vs.get? i).map .floatT
  | .stringCol vs => (vs.get? i).map .binT
  | .dateCol vs => (vs.get? i).map .uintT
  | .datetimeCol vs => (vs.get? i).map (fun t => .uintT (u64ofI64 t))
  | .otherCol _ => none

/-- Specification-side row extraction at index `r`: every column's cell at
`r`, columns in declared order. -/
def rowAtSpec (b : Block) (r : Nat) : Option Row :=
  omap (fun p => (cellTerm p.2 r).map (fun t => (p.1, t))) b.cols

/-- Supported column kinds: every dynamic column type matched by one of the
thirteen dispatch arms of `block_to_maps_impl`. -/
def Column.supported : Column → Bool
  | .otherCol _ => false
  | _ => true

/-!
Round-trip inputs: one constructor per supported scalar kind, carrying the
carrier-typed value sequence handed to that kind's bulk append NIF.
-/

/-- Value sequence for one supported scalar kind, in the carrier representation
of that kind's bulk append NIF. -/
inductive KindInput : Type
  | u8In (vs : List Nat)
  | u16In (vs : List Nat)
  | u32In (vs : List Nat)
  | u64In (vs : List Nat)
  | i8In (vs : List Int)
  | i16In (vs : List Int)
  | i32In (vs : List Int)
  | i64In (vs : List Int)
  | f32In (vs : List Nat)
  | f64In (vs : List Nat)
  | strIn (vs : List (List Nat))
  | dateIn (vs : List Nat)
  | dtIn (vs : List Nat)

/-- ClickHouse type name of the kind, as accepted by `column_create`. -/
def KindInput.typeName : KindInput → String
  | .u8In _ => "UInt8"
  | .u16In _ => "UInt16"
  | .u32In _ => "UInt32"
  | .u64In _ => "UInt64"
  | .i8In _ => "Int8"
  | .i16In _ => "Int16"
  | .i32In _ => "Int32"
  | .i64In _ => "Int64"
  | .f32In _ => "Float32"
  | .f64In _ => "Float64"
  | .strIn _ => "String"
  | .dateIn _ => "Date"
  | .dtIn _ => "DateTime"

/-- Validity of the values for their kind: integers within the kind's range
(`Date` 16-bit, `DateTime` 64-bit), float bit patterns within 64 bits, and for
`Float32` a double exactly representable in binary32 (rounding to binary32 and
widening back is lossless).  Strings are unconstrained byte sequences. -/
def KindInput.valid : KindInput → Prop
  | .u8In vs => ∀ v ∈ vs, v < 2 ^ 8
  | .u16In vs => ∀ v ∈ vs, v < 2 ^ 16
  | .u32In vs => ∀ v ∈ vs, v < 2 ^ 32
  | .u64In vs => ∀ v ∈ vs, v < 2 ^ 64
  | .i8In vs => ∀ v ∈ vs, -(2 ^ 7 : Int) ≤ v ∧ v < 2 ^ 7
  | .i16In vs => ∀ v ∈ vs, -(2 ^ 15 : Int) ≤ v ∧ v < 2 ^ 15
  | .i32In vs => ∀ v ∈ vs, -(2 ^ 31 : Int) ≤ v ∧ v < 2 ^ 31
  | .i64In vs => ∀ v ∈ vs, -(2 ^ 63 : Int) ≤ v ∧ v < 2 ^ 63
  | .f32In vs => ∀ v ∈ vs, v < 2 ^ 64 ∧ f32ToF64bits (f64ToF32bits v) = v
  | .f64In vs => ∀ v ∈ vs, v < 2 ^ 64
  | .strIn _ => True
  | .dateIn vs => ∀ v ∈ vs, v < 2 ^ 16
  | .dtIn vs => ∀ v ∈ vs, v < 2 ^ 64

/-- Number of appended values. -/
def KindInput.len : KindInput → Nat
  | .u8In vs => vs.length
  | .u16In vs => vs.length
  | .u32In vs => vs.length
  | .u64In vs => vs.length
  | .i8In vs => vs.length
  | .i16In vs => vs.length
  | .i32In vs => vs.length
  | .i64In vs => vs.length
  | .f32In vs => vs.length
  | .f64In vs => vs.length
  | .strIn vs => vs.length
  | .dateIn vs => vs.length
  | .dtIn vs => vs.length

/-- The appended values rendered as external Erlang terms: the identity
embedding of each carrier value (unsigned kinds as `uintT`, signed as `intT`,
floats as the same 64-bit pattern, strings byte-exact). -/
def KindInput.terms : KindInput → List Term
  | .u8In vs => vs.map .uintT
  | .u16In vs => vs.map .uintT
  | .u32In vs => vs.map .uintT
  | .u64In vs => vs.map .uintT
  | .i8In vs => vs.map .intT
  | .i16In vs => vs.map .intT
  | .i32In vs => vs.map .intT
  | .i64In vs => vs.map .intT
  | .f32In vs => vs.map .floatT
  | .f64In vs => vs.map .floatT
  | .strIn vs => vs.map .binT
  | .dateIn vs => vs.map .uintT
  | .dtIn vs => vs.map .uintT

/-- Run the kind's bulk append NIF on a column. -/
def KindInput.runBulk : KindInput → Column → Outcome Column
  | .u8In vs, c => column_uint8_append_bulk c vs
  | .u16In vs, c => column_uint16_append_bulk c vs
  | .u32In vs, c => column_uint32_append_bulk c vs
  | .u64In vs, c => column_uint64_append_bulk c vs
  | .i8In vs, c => column_int8_append_bulk c vs
  | .i16In vs, c => column_int16_append_bulk c vs
  | .i32In vs, c => column_int32_append_bulk c vs
  | .i64In vs, c => column_int64_append_bulk c vs
  | .f32In vs, c => column_float32_append_bulk c vs
  | .f64In vs, c => column_float64_append_bulk c vs
  | .strIn vs, c => column_string_append_bulk c vs
  | .dateIn vs, c => column_date_append_bulk c vs
  | .dtIn vs, c => column_datetime_append_bulk c vs

/-- Kinds whose externally-visible values are unsigned. -/
def KindInput.isUnsigned : KindInput → Bool
  | .u8In _ => true
  | .u16In _ => true
  | .u32In _ => true
  | .u64In _ => true
  | .dateIn _ => true
  | .dtIn _ => true
  | _ => false

/-- Specification-side iteration of a scalar append NIF: call it once per
value, in order, threading the column through and stopping at the first
non-ok outcome (the spec's "calling `append` once per element"). -/
def appendEach (f : Column → α → Outcome Column) :
    Column → List α → Outcome Column
  | c, [] => .ok c
  | c, v :: vs =>
      match f c v with
      | .ok c2 => appendEach f c2 vs
      | .exc => .exc
      | .undef => (.undef)

/-- Running totals of a list of counts, starting from `s`: the buffer sizes a
cumulative accumulator passes through. -/
def partialSumsFrom (s : Nat) : List Nat → List Nat
  | [] => []
  | a :: l => (s + a) :: partialSumsFrom (s + a) l

/-- A block whose two columns disagree on row count (3 and 4 rows) while the
block's declared row count is 3, as a wire decoder reporting the first
column's size would produce. -/
def c2Block : Block :=
  ⟨[("a", Column.uint64Col [1, 2, 3]), ("b", Column.uint64Col [4, 5, 6, 7])], 3⟩

/-- First arriving result block: two rows. -/
def c9b1 : Block := ⟨[("a", Column.uint64Col [1, 2])], 2⟩

/-- Second arriving result block: one row. -/
def c9b2 : Block := ⟨[("a", Column.uint64Col [3])], 1⟩

/-!
Helper lemmas about the fallible traversal `omap`.
-/

theorem omap_map (f : β → Option γ) (h : α → β) (l : List α) :
    omap f (l.map h) = omap (fun x => f (h x)) l := by
  induction l with
  | nil => rfl
  | cons a l ih => simp only [List.map_cons, omap, ih]

theorem omap_congr {f g : α → Option β} {l : List α}
    (h : ∀ a ∈ l, f a = g a) : omap f l = omap g l := by
  induction l with
  | nil => rfl
  | cons a l ih =>
      simp only [omap, h a (List.mem_cons_self a l)]
      rw [ih (fun x hx => h x (List.mem_cons_of_mem a hx))]

theorem omap_some (f : α → Option β) (g : α → β) (l : List α)
    (h : ∀ a ∈ l, f a = some (g a)) : omap f l = some (l.map g) := by
  induction l with
  | nil => rfl
  | cons a l ih =>
      simp only [omap, h a (List.mem_cons_self a l),
        ih (fun x hx => h x (List.mem_cons_of_mem a hx)), List.map_cons]

theorem omap_length {f : α → Option β} {l : List α} {bs : List β}
    (h : omap f l = some bs) : bs.length = l.length := by
  induction l generalizing bs with
  | nil => simp only [omap] at h; cases h; rfl
  | cons a l ih =>
      simp only [omap] at h
      cases hfa : f a with
      | none => rw [hfa] at h; exact absurd h (by simp)
      | some b =>
          rw [hfa] at h
          cases hrest : omap f l with
          | none => rw [hrest] at h; exact absurd h (by simp)
          | some bs₂ =>
              rw [hrest] at h
              cases h
              simp only [List.length_cons, ih hrest]

theorem omap_eq_none {f : α → Option β} {l : List α} {a : α}
    (ha : a ∈ l) (hfa : f a = none) : omap f l = none := by
  induction l with
  | nil => cases ha
  | cons x l ih =>
      rcases List.mem_cons.mp ha with h | h
      · subst h; simp only [omap, hfa]
      · simp only [omap]
        cases hfx : f x with
        | none => rfl
        | some b => rw [ih h]

theorem omap_get {f : α → Option β} {l : List α} {bs : List β}
    (h : omap f l = some bs) (i : Nat) {a : α} (ha : l.get? i = some a) :
    bs.get? i = f a := by
  induction l generalizing bs i with
  | nil => simp at ha
  | cons x l ih =>
      simp only [omap] at h
      cases hfx : f x with
      | none => rw [hfx] at h; exact absurd h (by simp)
      | some b =>
          rw [hfx] at h
          cases hrest : omap f l with
          | none => rw [hrest] at h; exact absurd h (by simp)
          | some bs₂ =>
              rw [hrest] at h
              cases h
              cases i with
              | zero =>
                  simp only [List.get?] at ha
                  cases ha
                  simpa using hfx.symm
              | succ i =>
                  simp only [List.get?] at ha ⊢
                  exact ih hrest i ha

theorem omap_range_get (ts : List α) (g : α → β) :
    omap (fun r => (ts.get? r).map g) (List.range ts.length) =
      some (ts.map g) := by
  induction ts with
  | nil => rfl
  | cons a ts ih =>
      rw [List.length_cons, List.range_succ_eq_map]
      simp only [omap, List.get?, Option.map_some]
      rw [omap_map]
      have heq :
          omap (fun x => ((a :: ts).get? (Nat.succ x)).map g) (List.range ts.length) =
            omap (fun r => (ts.get? r).map g) (List.range ts.length) :=
        omap_congr (fun r _ => rfl)
      rw [heq, ih]
      rfl

/-!
Cast-identity lemmas: each C++ narrowing conversion is the identity on values
already in the target range.
-/

theorem natCast_id {w : Nat} {v : Nat} (h : v < 2 ^ w) : v % 2 ^ w = v :=
  Nat.mod_eq_of_lt h

theorem sCast_id {w : Nat} (hw : 1 ≤ w) {z : Int}
    (h1 : -(2 ^ (w - 1) : Int) ≤ z) (h2 : z < 2 ^ (w - 1)) : sCast w z = z := by
  unfold sCast
  have hsplit : (2 ^ w : Int) = 2 ^ (w - 1) * 2 := by
    rw [← pow_succ]
    congr 1
    omega
  have h0 : (0 : Int) ≤ z + 2 ^ (w - 1) := by linarith
  have hlt : z + 2 ^ (w - 1) < 2 ^ w := by
    rw [hsplit]; linarith
  rw [Int.emod_eq_of_lt h0 hlt]
  ring

theorem dtRoundtrip {v : Nat} (h : v < 2 ^ 64) : u64ofI64 (i64ofU64 v) = v := by
  unfold u64ofI64 i64ofU64
  by_cases h63 : v < 2 ^ 63
  · rw [if_pos h63]
    omega
  · rw [if_neg h63]
    omega

/-- Materializing a single-column block whose declared row count equals the
column's extracted length returns one singleton row per extracted term, in
order. -/
theorem blockToMaps_eqn (cols : List (String × Column)) (rc : Nat) :
    blockToMaps ⟨cols, rc⟩ =
      if rc = 0 then .ok []
      else
        match extractAll cols rc with
        | none => .exc
        | some cd =>
            if (cols.map Prod.fst).Nodup then
              match buildRows cd rc with
              | none => (.undef)
              | some rows => .ok rows
            else .undef := rfl

/-- Materializing a single-column block whose declared row count equals the
column's extracted length returns one singleton row per extracted term, in
order. -/
theorem blockToMaps_single (nm : String) (c : Column) (ts : List Term)
    (h : colTerms c ts.length = some ts) :
    blockToMaps ⟨[(nm, c)], ts.length⟩ =
      .ok (ts.map (fun t => [(nm, t)])) := by
  by_cases h0 : ts.length = 0
  · rw [blockToMaps_eqn, if_pos h0, List.length_eq_zero.mp h0]
    rfl
  · have hex : extractAll [(nm, c)] ts.length = some [(nm, ts)] := by
      simp only [extractAll, omap, h]
      rfl
    have hnd : (([(nm, c)] : List (String × Column)).map Prod.fst).Nodup := by
      simp
    have hrows : buildRows [(nm, ts)] ts.length =
        some (ts.map (fun t => [(nm, t)])) := by
      unfold buildRows
      have hin : ∀ r : Nat,
          omap (fun p : String × List Term => (p.2.get? r).map (fun t => (p.1, t)))
              [(nm, ts)] =
            (ts.get? r).map (fun t => [(nm, t)]) := by
        intro r
        simp only [omap]
        cases ts.get? r <;> rfl
      rw [omap_congr (fun r _ => hin r), omap_range_get]
    rw [blockToMaps_eqn, if_neg h0, hex]
    dsimp only
    rw [if_pos hnd, hrows]

theorem map_congr_mem {f g : α → β} {l : List α}
    (h : ∀ a ∈ l, f a = g a) : l.map f = l.map g := by
  induction l with
  | nil => rfl
  | cons a l ih =>
      simp only [List.map_cons, h a (List.mem_cons_self a l),
        ih (fun x hx => h x (List.mem_cons_of_mem a hx))]

theorem map_id_mem {f : α → α} {l : List α}
    (h : ∀ a ∈ l, f a = a) : l.map f = l := by
  induction l with
  | nil => rfl
  | cons a l ih =>
      simp only [List.map_cons, h a (List.mem_cons_self a l),
        ih (fun x hx => h x (List.mem_cons_of_mem a hx))]

theorem omap_cons_inv {f : α → Option β} {a : α} {l : List α} {bs : List β}
    (h : omap f (a :: l) = some bs) :
    ∃ b bs2, f a = some b ∧ omap f l = some bs2 ∧ bs = b :: bs2 := by
  simp only [omap] at h
  cases hfa : f a with
  | none => rw [hfa] at h; exact absurd h (by simp)
  | some b =>
      rw [hfa] at h
      cases hl : omap f l with
      | none => rw [hl] at h; exact absurd h (by simp)
      | some bs2 =>
          rw [hl] at h
          have h2 : some (b :: bs2) = some bs := h
          injection h2 with h2
          exact ⟨b, bs2, rfl, rfl, h2.symm⟩

theorem omap_isSome {f : α → Option β} {l : List α}
    (h : ∀ a ∈ l, ∃ b, f a = some b) :
    ∃ bs, omap f l = some bs ∧ bs.length = l.length := by
  induction l with
  | nil => exact ⟨[], rfl, rfl⟩
  | cons a l ih =>
      rcases h a (List.mem_cons_self a l) with ⟨b, hb⟩
      rcases ih (fun x hx => h x (List.mem_cons_of_mem a hx)) with ⟨bs, hbs, hlen⟩
      refine ⟨b :: bs, ?_, by simp [hlen]⟩
      simp only [omap, hb, hbs]

theorem omap_mem {f : α → Option β} {l : List α} {bs : List β}
    (h : omap f l = some bs) : ∀ b ∈ bs, ∃ a ∈ l, f a = some b := by
  induction l generalizing bs with
  | nil =>
      simp only [omap] at h
      cases h
      intro b hb
      cases hb
  | cons a l ih =>
      rcases omap_cons_inv h with ⟨b, bs2, hb, hrest, rfl⟩
      intro x hx
      rcases List.mem_cons.mp hx with h1 | h1
      · exact ⟨a, List.mem_cons_self a l, h1 ▸ hb⟩
      · rcases ih hrest x h1 with ⟨a2, ha2, hfa2⟩
        exact ⟨a2, List.mem_cons_of_mem a ha2, hfa2⟩

theorem take_map_get {vs : List α} {conv : α → Term} {rc r : Nat} {ts : List Term}
    (h : (if rc ≤ vs.length then some ((vs.take rc).map conv) else none) = some ts)
    (hr : r < rc) : ts.get? r = (vs.get? r).map conv := by
  split at h
  · cases h
    rw [List.get?_map, List.get?_take hr]
  · exact Option.noConfusion h

theorem colTerms_get {c : Column} {rc : Nat} {ts : List Term}
    (h : colTerms c rc = some ts) {r : Nat} (hr : r < rc) :
    ts.get? r = cellTerm c r := by
  cases c with
  | uint8Col vs => exact take_map_get h hr
  | uint16Col vs => exact take_map_get h hr
  | uint32Col vs => exact take_map_get h hr
  | uint64Col vs => exact take_map_get h hr
  | int8Col vs => exact take_map_get h hr
  | int16Col vs => exact take_map_get h hr
  | int32Col vs => exact take_map_get h hr
  | int64Col vs => exact take_map_get h hr
  | float32Col vs => exact take_map_get h hr
  | float64Col vs => exact take_map_get h hr
  | stringCol vs => exact take_map_get h hr
  | dateCol vs => exact take_map_get h hr
  | datetimeCol vs => exact take_map_get h hr
  | otherCol n =>
      have h2 : some ([] : List Term) = some ts := h
      injection h2 with h2
      subst h2
      rfl

theorem take_map_some {vs : List α} {conv : α → Term} {rc : Nat}
    (hle : rc ≤ vs.length) :
    (if rc ≤ vs.length then some ((vs.take rc).map conv) else none) =
        some ((vs.take rc).map conv) ∧
      ((vs.take rc).map conv).length = rc := by
  refine ⟨if_pos hle, ?_⟩
  simp [List.length_take, Nat.min_eq_left hle]

theorem colTerms_some {c : Column} {rc : Nat} (hs : c.supported = true)
    (hle : rc ≤ c.size) : ∃ ts, colTerms c rc = some ts ∧ ts.length = rc := by
  cases c with
  | uint8Col vs => exact ⟨_, (take_map_some hle).1, (take_map_some hle).2⟩
  | uint16Col vs => exact ⟨_, (take_map_some hle).1, (take_map_some hle).2⟩
  | uint32Col vs => exact ⟨_, (take_map_some hle).1, (take_map_some hle).2⟩
  | uint64Col vs => exact ⟨_, (take_map_some hle).1, (take_map_some hle).2⟩
  | int8Col vs => exact ⟨_, (take_map_some hle).1, (take_map_some hle).2⟩
  | int16Col vs => exact ⟨_, (take_map_some hle).1, (take_map_some hle).2⟩
  | int32Col vs => exact ⟨_, (take_map_some hle).1, (take_map_some hle).2⟩
  | int64Col vs => exact ⟨_, (take_map_some hle).1, (take_map_some hle).2⟩
  | float32Col vs => exact ⟨_, (take_map_some hle).1, (take_map_some hle).2⟩
  | float64Col vs => exact ⟨_, (take_map_some hle).1, (take_map_some hle).2⟩
  | stringCol vs => exact ⟨_, (take_map_some hle).1, (take_map_some hle).2⟩
  | dateCol vs => exact ⟨_, (take_map_some hle).1, (take_map_some hle).2⟩
  | datetimeCol vs => exact ⟨_, (take_map_some hle).1, (take_map_some hle).2⟩
  | otherCol n => simp [Column.supported] at hs

theorem colTerms_none {c : Column} {rc : Nat} (hs : c.supported = true)
    (hlt : c.size < rc) : colTerms c rc = none := by
  cases c with
  | uint8Col vs => exact if_neg (by exact Nat.not_le.mpr hlt)
  | uint16Col vs => exact if_neg (by exact Nat.not_le.mpr hlt)
  | uint32Col vs => exact if_neg (by exact Nat.not_le.mpr hlt)
  | uint64Col vs => exact if_neg (by exact Nat.not_le.mpr hlt)
  | int8Col vs => exact if_neg (by exact Nat.not_le.mpr hlt)
  | int16Col vs => exact if_neg (by exact Nat.not_le.mpr hlt)
  | int32Col vs => exact if_neg (by exact Nat.not_le.mpr hlt)
  | int64Col vs => exact if_neg (by exact Nat.not_le.mpr hlt)
  | float32Col vs => exact if_neg (by exact Nat.not_le.mpr hlt)
  | float64Col vs => exact if_neg (by exact Nat.not_le.mpr hlt)
  | stringCol vs => exact if_neg (by exact Nat.not_le.mpr hlt)
  | dateCol vs => exact if_neg (by exact Nat.not_le.mpr hlt)
  | datetimeCol vs => exact if_neg (by exact Nat.not_le.mpr hlt)
  | otherCol n => simp [Column.supported] at hs

theorem buildRows_total {cd : List (String × List Term)} {rc : Nat}
    (h : ∀ p ∈ cd, rc ≤ (p : String × List Term).2.length) :
    ∃ rows, buildRows cd rc = some rows ∧ rows.length = rc := by
  have hrow : ∀ r ∈ List.range rc, ∃ row,
      omap (fun p : String × List Term =>
        (p.2.get? r).map (fun t => (p.1, t))) cd = some row := by
    intro r hr
    have hr2 := List.mem_range.mp hr
    have hall : ∀ p ∈ cd, ∃ q,
        (fun p : String × List Term =>
          (p.2.get? r).map (fun t => (p.1, t))) p = some q := by
      intro p hp
      have hlt : r < p.2.length := lt_of_lt_of_le hr2 (h p hp)
      cases hg : p.2.get? r with
      | none =>
          rw [List.get?_eq_none] at hg
          omega
      | some t => exact ⟨(p.1, t), by simp only [hg]; rfl⟩
    rcases omap_isSome hall with ⟨row, hrow2, _⟩
    exact ⟨row, hrow2⟩
  rcases omap_isSome hrow with ⟨rows, hrows, hlen⟩
  exact ⟨rows, hrows, by simpa using hlen⟩

theorem extract_transpose {cols : List (String × Column)} {rc : Nat}
    {cd : List (String × List Term)}
    (h : omap (fun p : String × Column =>
      (colTerms p.2 rc).map (fun ts => (p.1, ts))) cols = some cd)
    {r : Nat} (hr : r < rc) :
    omap (fun p : String × List Term =>
        (p.2.get? r).map (fun t => (p.1, t))) cd =
      omap (fun p : String × Column =>
        (cellTerm p.2 r).map (fun t => (p.1, t))) cols := by
  induction cols generalizing cd with
  | nil =>
      simp only [omap] at h
      cases h
      rfl
  | cons p cols ih =>
      rcases omap_cons_inv h with ⟨q, cd2, hq, hrest, rfl⟩
      cases hct : colTerms p.2 rc with
      | none => rw [hct] at hq; exact absurd hq (by simp)
      | some ts =>
          rw [hct] at hq
          have hq2 : some (p.1, ts) = some q := hq
          injection hq2 with hq2
          subst hq2
          simp only [omap]
          rw [colTerms_get hct hr, ih hrest]

theorem clientSelectLoop_ok {bs : List Block} {rss : List (List Row)}
    (h : List.Forall₂ (fun b rs => blockToMaps b = .ok rs) bs rss) :
    ∀ acc, clientSelectLoop bs acc = .ok (acc ++ rss.join) := by
  induction h with
  | nil => intro acc; simp [clientSelectLoop]
  | @cons b rs bs2 rss2 hb _ ih =>
      intro acc
      simp only [clientSelectLoop, hb]
      rw [ih (acc ++ rs)]
      simp

theorem clientSelectTrace_ok {bs : List Block} {rss : List (List Row)}
    (h : List.Forall₂ (fun b rs => blockToMaps b = .ok rs) bs rss) :
    ∀ acc, clientSelectTrace bs acc =
      partialSumsFrom acc.length (rss.map List.length) := by
  induction h with
  | nil => intro acc; rfl
  | @cons b rs bs2 rss2 hb _ ih =>
      intro acc
      simp only [clientSelectTrace, hb, List.map_cons, partialSumsFrom]
      rw [ih (acc ++ rs)]
      simp [List.length_append]

example : blockToMaps ⟨[("a", Column.uint64Col [1, 2]), ("b", Column.stringCol [[104], [105]])], 2⟩ =
    Outcome.ok [[("a", Term.uintT 1), ("b", Term.binT [104])],
      [("a", Term.uintT 2), ("b", Term.binT [105])]] := by decide

example : blockToMaps ⟨[("a", Column.otherCol 1)], 1⟩ = Outcome.undef := by decide

example : blockToMaps ⟨[("a", Column.uint64Col [1, 2, 3]), ("b", Column.uint64Col [4, 5, 6, 7])], 3⟩ =
    Outcome.ok [[("a", Term.uintT 1), ("b", Term.uintT 4)],
      [("a", Term.uintT 2), ("b", Term.uintT 5)],
      [("a", Term.uintT 3), ("b", Term.uintT 6)]] := by decide

example : blockToMaps ⟨[("a", Column.uint64Col [1, 2, 3]), ("b", Column.uint64Col [4, 5])], 3⟩ =
    Outcome.exc := by decide

example : bufferSizes [⟨[("a", Column.uint64Col [1, 2])], 2⟩, ⟨[("a", Column.uint64Col [3])], 1⟩] =
    [2, 3] := by decide

example : column_uint8_append_bulk (Column.uint8Col []) [0x1FF] =
    Outcome.ok (Column.uint8Col [0xFF]) := by decide

example : sCast 8 300 = 44 := by decide

example : sCast 8 (-1) = -1 := by decide

example : f64ToF32bits 4609434218613702656 = 1069547520 := by decide

example : f32ToF64bits 1069547520 = 4609434218613702656 := by decide

/-- C1: Round-trip fidelity — for every supported scalar kind, creating a
fresh column of that kind, bulk-appending a sequence of valid values, and
materializing a one-column block holding it returns exactly the appended
values in order: unsigned kinds come back as (nonnegative) `uintT` terms,
signed kinds as the same `intT` values, `String` byte-exact, `Float64` as the
identical 64-bit pattern, and `Float32` widened back to the identical 64-bit
pattern without added precision. -/
theorem roundtrip_materialize (inp : KindInput) (hv : inp.valid) :
    ∃ c₀ c : Column,
      column_create inp.typeName = .ok c₀ ∧
      inp.runBulk c₀ = .ok c ∧
      blockToMaps ⟨[("x", c)], inp.len⟩ =
        .ok (inp.terms.map (fun t => [("x", t)])) ∧
      (inp.isUnsigned = true → ∀ t ∈ inp.terms, ∃ n : Nat, t = Term.uintT n) := by
  cases inp with
  | u8In vs =>
      have hmap : vs.map (· % 2 ^ 8) = vs :=
        map_id_mem (fun v hv' => natCast_id (hv v hv'))
      refine ⟨.uint8Col [], .uint8Col vs, rfl, ?_, ?_, ?_⟩
      · show column_uint8_append_bulk (.uint8Col []) vs = .ok (.uint8Col vs)
        simp only [column_uint8_append_bulk, List.nil_append, hmap]
      · have hct : colTerms (.uint8Col vs) (vs.map Term.uintT).length =
            some (vs.map Term.uintT) := by simp [colTerms]
        simpa [KindInput.len, KindInput.terms] using
          blockToMaps_single "x" (.uint8Col vs) (vs.map Term.uintT) hct
      · intro _ t ht
        simp only [KindInput.terms] at ht
        rcases List.mem_map.mp ht with ⟨v, _, rfl⟩
        exact ⟨v, rfl⟩
  | u16In vs =>
      have hmap : vs.map (· % 2 ^ 16) = vs :=
        map_id_mem (fun v hv' => natCast_id (hv v hv'))
      refine ⟨.uint16Col [], .uint16Col vs, rfl, ?_, ?_, ?_⟩
      · show column_uint16_append_bulk (.uint16Col []) vs = .ok (.uint16Col vs)
        simp only [column_uint16_append_bulk, List.nil_append, hmap]
      · have hct : colTerms (.uint16Col vs) (vs.map Term.uintT).length =
            some (vs.map Term.uintT) := by simp [colTerms]
        simpa [KindInput.len, KindInput.terms] using
          blockToMaps_single "x" (.uint16Col vs) (vs.map Term.uintT) hct
      · intro _ t ht
        simp only [KindInput.terms] at ht
        rcases List.mem_map.mp ht with ⟨v, _, rfl⟩
        exact ⟨v, rfl⟩
  | u32In vs =>
      have hmap : vs.map (· % 2 ^ 32) = vs :=
        map_id_mem (fun v hv' => natCast_id (hv v hv'))
      refine ⟨.uint32Col [], .uint32Col vs, rfl, ?_, ?_, ?_⟩
      · show column_uint32_append_bulk (.uint32Col []) vs = .ok (.uint32Col vs)
        simp only [column_uint32_append_bulk, List.nil_append, hmap]
      · have hct : colTerms (.uint32Col vs) (vs.map Term.uintT).length =
            some (vs.map Term.uintT) := by simp [colTerms]
        simpa [KindInput.len, KindInput.terms] using
          blockToMaps_single "x" (.uint32Col vs) (vs.map Term.uintT) hct
      · intro _ t ht
        simp only [KindInput.terms] at ht
        rcases List.mem_map.mp ht with ⟨v, _, rfl⟩
        exact ⟨v, rfl⟩
  | u64In vs =>
      refine ⟨.uint64Col [], .uint64Col vs, rfl, rfl, ?_, ?_⟩
      · have hct : colTerms (.uint64Col vs) (vs.map Term.uintT).length =
            some (vs.map Term.uintT) := by simp [colTerms]
        simpa [KindInput.len, KindInput.terms] using
          blockToMaps_single "x" (.uint64Col vs) (vs.map Term.uintT) hct
      · intro _ t ht
        simp only [KindInput.terms] at ht
        rcases List.mem_map.mp ht with ⟨v, _, rfl⟩
        exact ⟨v, rfl⟩
  | i8In vs =>
      have hmap : vs.map (sCast 8) = vs :=
        map_id_mem (fun v hv' => sCast_id (by norm_num) (hv v hv').1 (hv v hv').2)
      refine ⟨.int8Col [], .int8Col vs, rfl, ?_, ?_, ?_⟩
      · show column_int8_append_bulk (.int8Col []) vs = .ok (.int8Col vs)
        simp only [column_int8_append_bulk, List.nil_append, hmap]
      · have hct : colTerms (.int8Col vs) (vs.map Term.intT).length =
            some (vs.map Term.intT) := by simp [colTerms]
        simpa [KindInput.len, KindInput.terms] using
          blockToMaps_single "x" (.int8Col vs) (vs.map Term.intT) hct
      · intro h
        simp [KindInput.isUnsigned] at h
  | i16In vs =>
      have hmap : vs.map (sCast 16) = vs :=
        map_id_mem (fun v hv' => sCast_id (by norm_num) (hv v hv').1 (hv v hv').2)
      refine ⟨.int16Col [], .int16Col vs, rfl, ?_, ?_, ?_⟩
      · show column_int16_append_bulk (.int16Col []) vs = .ok (.int16Col vs)
        simp only [column_int16_append_bulk, List.nil_append, hmap]
      · have hct : colTerms (.int16Col vs) (vs.map Term.intT).length =
            some (vs.map Term.intT) := by simp [colTerms]
        simpa [KindInput.len, KindInput.terms] using
          blockToMaps_single "x" (.int16Col vs) (vs.map Term.intT) hct
      · intro h
        simp [KindInput.isUnsigned] at h
  | i32In vs =>
      have hmap : vs.map (sCast 32) = vs :=
        map_id_mem (fun v hv' => sCast_id (by norm_num) (hv v hv').1 (hv v hv').2)
      refine ⟨.int32Col [], .int32Col vs, rfl, ?_, ?_, ?_⟩
      · show column_int32_append_bulk (.int32Col []) vs = .ok (.int32Col vs)
        simp only [column_int32_append_bulk, List.nil_append, hmap]
      · have hct : colTerms (.int32Col vs) (vs.map Term.intT).length =
            some (vs.map Term.intT) := by simp [colTerms]
        simpa [KindInput.len, KindInput.terms] using
          blockToMaps_single "x" (.int32Col vs) (vs.map Term.intT) hct
      · intro h
        simp [KindInput.isUnsigned] at h
  | i64In vs =>
      refine ⟨.int64Col [], .int64Col vs, rfl, rfl, ?_, ?_⟩
      · have hct : colTerms (.int64Col vs) (vs.map Term.intT).length =
            some (vs.map Term.intT) := by simp [colTerms]
        simpa [KindInput.len, KindInput.terms] using
          blockToMaps_single "x" (.int64Col vs) (vs.map Term.intT) hct
      · intro h
        simp [KindInput.isUnsigned] at h
  | f32In vs =>
      refine ⟨.float32Col [], .float32Col (vs.map f64ToF32bits), rfl, rfl, ?_, ?_⟩
      · have hts : (vs.map f64ToF32bits).map (fun b => Term.floatT (f32ToF64bits b)) =
            vs.map Term.floatT := by
          rw [List.map_map]
          exact map_congr_mem (fun v hv' => by
            simp only [Function.comp_apply]
            rw [(hv v hv').2])
        have hct : colTerms (.float32Col (vs.map f64ToF32bits))
            (vs.map Term.floatT).length = some (vs.map Term.floatT) := by
          simp only [colTerms, List.length_map, le_refl, if_pos, List.take_length]
          rw [List.take_of_length_le (by simp), hts]
        simpa [KindInput.len, KindInput.terms] using
          blockToMaps_single "x" (.float32Col (vs.map f64ToF32bits))
            (vs.map Term.floatT) hct
      · intro h
        simp [KindInput.isUnsigned] at h
  | f64In vs =>
      refine ⟨.float64Col [], .float64Col vs, rfl, rfl, ?_, ?_⟩
      · have hct : colTerms (.float64Col vs) (vs.map Term.floatT).length =
            some (vs.map Term.floatT) := by simp [colTerms]
        simpa [KindInput.len, KindInput.terms] using
          blockToMaps_single "x" (.float64Col vs) (vs.map Term.floatT) hct
      · intro h
        simp [KindInput.isUnsigned] at h
  | strIn vs =>
      refine ⟨.stringCol [], .stringCol vs, rfl, rfl, ?_, ?_⟩
      · have hct : colTerms (.stringCol vs) (vs.map Term.binT).length =
            some (vs.map Term.binT) := by simp [colTerms]
        simpa [KindInput.len, KindInput.terms] using
          blockToMaps_single "x" (.stringCol vs) (vs.map Term.binT) hct
      · intro h
        simp [KindInput.isUnsigned] at h
  | dateIn vs =>
      have hmap : vs.map (· % 2 ^ 16) = vs :=
        map_id_mem (fun v hv' => natCast_id (hv v hv'))
      refine ⟨.dateCol [], .dateCol vs, rfl, ?_, ?_, ?_⟩
      · show column_date_append_bulk (.dateCol []) vs = .ok (.dateCol vs)
        simp only [column_date_append_bulk, List.nil_append, hmap]
      · have hct : colTerms (.dateCol vs) (vs.map Term.uintT).length =
            some (vs.map Term.uintT) := by simp [colTerms]
        simpa [KindInput.len, KindInput.terms] using
          blockToMaps_single "x" (.dateCol vs) (vs.map Term.uintT) hct
      · intro _ t ht
        simp only [KindInput.terms] at ht
        rcases List.mem_map.mp ht with ⟨v, _, rfl⟩
        exact ⟨v, rfl⟩
  | dtIn vs =>
      refine ⟨.datetimeCol [], .datetimeCol (vs.map i64ofU64), rfl, rfl, ?_, ?_⟩
      · have hts : (vs.map i64ofU64).map (fun t => Term.uintT (u64ofI64 t)) =
            vs.map Term.uintT := by
          rw [List.map_map]
          exact map_congr_mem (fun v hv' => by
            simp only [Function.comp_apply]
            rw [dtRoundtrip (hv v hv')])
        have hct : colTerms (.datetimeCol (vs.map i64ofU64))
            (vs.map Term.uintT).length = some (vs.map Term.uintT) := by
          simp only [colTerms, List.length_map, le_refl, if_pos, List.take_length]
          rw [List.take_of_length_le (by simp), hts]
        simpa [KindInput.len, KindInput.terms] using
          blockToMaps_single "x" (.datetimeCol (vs.map i64ofU64))
            (vs.map Term.uintT) hct
      · intro _ t ht
        simp only [KindInput.terms] at ht
        rcases List.mem_map.mp ht with ⟨v, _, rfl⟩
        exact ⟨v, rfl⟩

/-- C1 witness: the round-trip property instantiated at concrete valid inputs
for an unsigned 8-bit column and a Float32 column (1.5, exactly representable
in binary32). -/
theorem roundtrip_materialize_witness :
    (∃ c₀ c : Column,
      column_create (KindInput.u8In [0, 255]).typeName = .ok c₀ ∧
      (KindInput.u8In [0, 255]).runBulk c₀ = .ok c ∧
      blockToMaps ⟨[("x", c)], (KindInput.u8In [0, 255]).len⟩ =
        .ok ((KindInput.u8In [0, 255]).terms.map (fun t => [("x", t)])) ∧
      ((KindInput.u8In [0, 255]).isUnsigned = true →
        ∀ t ∈ (KindInput.u8In [0, 255]).terms, ∃ n : Nat, t = Term.uintT n)) ∧
    (∃ c₀ c : Column,
      column_create (KindInput.f32In [4609434218613702656]).typeName = .ok c₀ ∧
      (KindInput.f32In [4609434218613702656]).runBulk c₀ = .ok c ∧
      blockToMaps ⟨[("x", c)], (KindInput.f32In [4609434218613702656]).len⟩ =
        .ok ((KindInput.f32In [4609434218613702656]).terms.map (fun t => [("x", t)])) ∧
      ((KindInput.f32In [4609434218613702656]).isUnsigned = true →
        ∀ t ∈ (KindInput.f32In [4609434218613702656]).terms,
          ∃ n : Nat, t = Term.uintT n)) :=
  ⟨roundtrip_materialize (KindInput.u8In [0, 255])
      (by unfold KindInput.valid; decide),
   roundtrip_materialize (KindInput.f32In [4609434218613702656])
      (by unfold KindInput.valid; decide)⟩

/-- C7: Narrowing truncation rule — appending the 64-bit carrier `0x1FF`
through the narrowing bulk path into an 8-bit column succeeds (no failure) and
stores exactly `0xFF`, the low 8 bits of the carrier; the rule is bit
truncation, not clamping: the carrier `0x200`, which clamping would also
saturate to `0xFF`, stores `0` instead. -/
theorem uint8_truncation :
    column_uint8_append_bulk (Column.uint8Col []) [0x1FF] =
      .ok (Column.uint8Col [0xFF]) ∧
    (0xFF : Nat) = 0x1FF % 2 ^ 8 ∧
    column_uint8_append_bulk (Column.uint8Col []) [0x200] =
      .ok (Column.uint8Col [0]) :=
  ⟨by decide, by decide, by decide⟩

/-- C3 (code evaluated at the failing input): materializing a one-row block
whose single column has an unsupported kind does not fail with an
UnsupportedColumnType error — no such error exists in the code.  The dispatch
chain matches no arm, leaving that column's extracted values empty, and the
row-building read `col_data[0][0]` is out of bounds: undefined behavior
(`undef`), not a reported error (`exc`). -/
theorem unsupported_kind_undefined :
    blockToMaps ⟨[("a", Column.otherCol 1)], 1⟩ = Outcome.undef ∧
    (Outcome.undef : Outcome (List Row)) ≠ Outcome.exc :=
  ⟨by decide, by decide⟩

/-- C2 counterexample: a ColumnSet whose columns disagree on row count (sizes
3 and 4) does not make materialization fail with RowCountMismatch and produce
zero rows — it succeeds and returns 3 rows, silently truncating the longer
column to the block's declared row count. -/
theorem rowcount_mismatch_cex :
    (Column.uint64Col [1, 2, 3]).size ≠ (Column.uint64Col [4, 5, 6, 7]).size ∧
    blockToMaps c2Block =
      Outcome.ok
        [[("a", Term.uintT 1), ("b", Term.uintT 4)],
         [("a", Term.uintT 2), ("b", Term.uintT 5)],
         [("a", Term.uintT 3), ("b", Term.uintT 6)]] :=
  ⟨by decide, by decide⟩

/-- C4 counterexample: invoking a scalar append on a column constructed with a
different kind does not fail with a TypeMismatch error — the unchecked
`static_pointer_cast` makes the call undefined behavior (`undef`), which is
not the reported-error outcome (`exc`). -/
theorem append_mismatch_cex :
    column_uint64_append (Column.stringCol []) 5 = Outcome.undef ∧
    column_string_append (Column.uint64Col []) [104] = Outcome.undef ∧
    (Outcome.undef : Outcome Column) ≠ Outcome.exc :=
  ⟨rfl, rfl, by decide⟩

theorem appendEach_uint64 (ws vs : List Nat) :
    appendEach column_uint64_append (Column.uint64Col ws) vs =
      .ok (Column.uint64Col (ws ++ vs)) := by
  induction vs generalizing ws with
  | nil => simp [appendEach]
  | cons v vs ih =>
      simp only [appendEach, column_uint64_append]
      rw [ih]
      simp

theorem appendEach_int64 (ws vs : List Int) :
    appendEach column_int64_append (Column.int64Col ws) vs =
      .ok (Column.int64Col (ws ++ vs)) := by
  induction vs generalizing ws with
  | nil => simp [appendEach]
  | cons v vs ih =>
      simp only [appendEach, column_int64_append]
      rw [ih]
      simp

theorem appendEach_string (ws vs : List (List Nat)) :
    appendEach column_string_append (Column.stringCol ws) vs =
      .ok (Column.stringCol (ws ++ vs)) := by
  induction vs generalizing ws with
  | nil => simp [appendEach]
  | cons v vs ih =>
      simp only [appendEach, column_string_append]
      rw [ih]
      simp

theorem appendEach_float64 (ws vs : List Nat) :
    appendEach column_float64_append (Column.float64Col ws) vs =
      .ok (Column.float64Col (ws ++ vs)) := by
  induction vs generalizing ws with
  | nil => simp [appendEach]
  | cons v vs ih =>
      simp only [appendEach, column_float64_append]
      rw [ih]
      simp

theorem appendEach_datetime (ws : List Int) (vs : List Nat) :
    appendEach column_datetime_append (Column.datetimeCol ws) vs =
      .ok (Column.datetimeCol (ws ++ vs.map i64ofU64)) := by
  induction vs generalizing ws with
  | nil => simp [appendEach]
  | cons v vs ih =>
      simp only [appendEach, column_datetime_append]
      rw [ih]
      simp

/-- C2 amended: the materializer performs no cross-column row-count
validation.  On a block of supported columns each at least as long as the
declared row count, materialization succeeds and returns exactly the declared
number of rows — columns longer than the declared count are silently
truncated, with no error of any kind.  When the declared count exceeds some
column's length (and is nonzero), the bounds-checked column read throws a
generic out-of-range exception (`exc`), not a dedicated RowCountMismatch
error, and no rows are returned. -/
theorem rowcount_no_validation (b : Block)
    (hnd : (b.cols.map Prod.fst).Nodup)
    (hsup : ∀ p ∈ b.cols, (p : String × Column).2.supported = true) :
    ((∀ p ∈ b.cols, b.rowCount ≤ (p : String × Column).2.size) →
      ∃ rows, blockToMaps b = .ok rows ∧ rows.length = b.rowCount) ∧
    ((∃ p ∈ b.cols, (p : String × Column).2.size < b.rowCount) →
      b.rowCount ≠ 0 → blockToMaps b = .exc) := by
  obtain ⟨cols, rc⟩ := b
  constructor
  · intro hlen
    by_cases h0 : rc = 0
    · subst h0
      exact ⟨[], by rw [blockToMaps_eqn]; rfl, rfl⟩
    · have hext : ∀ p ∈ cols, ∃ q,
          (fun p : String × Column =>
            (colTerms p.2 rc).map (fun ts => (p.1, ts))) p = some q := by
        intro p hp
        rcases colTerms_some (hsup p hp) (hlen p hp) with ⟨ts, hts, _⟩
        exact ⟨(p.1, ts), by simp only [hts]; rfl⟩
      rcases omap_isSome hext with ⟨cd, hcd, _⟩
      have hcdlen : ∀ q ∈ cd, rc ≤ (q : String × List Term).2.length := by
        intro q hq
        rcases omap_mem hcd q hq with ⟨p, hp, hfq⟩
        rcases colTerms_some (hsup p hp) (hlen p hp) with ⟨ts, hts, htslen⟩
        simp only [hts] at hfq
        have hfq2 : some (p.1, ts) = some q := hfq
        injection hfq2 with hfq2
        subst hfq2
        exact le_of_eq htslen.symm
      rcases buildRows_total hcdlen with ⟨rows, hrows, hrlen⟩
      refine ⟨rows, ?_, hrlen⟩
      rw [blockToMaps_eqn, if_neg h0]
      rw [show extractAll cols rc = some cd from hcd]
      dsimp only
      rw [if_pos hnd, hrows]
  · rintro ⟨p, hp, hlt⟩ h0
    have hnone : (fun p : String × Column =>
        (colTerms p.2 rc).map (fun ts => (p.1, ts))) p = none := by
      simp only [colTerms_none (hsup p hp) hlt]
      rfl
    have hext : extractAll cols rc = none := omap_eq_none hp hnone
    rw [blockToMaps_eqn, if_neg h0, hext]

/-- C2 amended witness: the truncation half at the 3-versus-4 block
(succeeds with 3 rows), and the exception half at a block whose declared row
count 3 exceeds its single column's length 2. -/
theorem rowcount_no_validation_witness :
    (∃ rows, blockToMaps c2Block = .ok rows ∧ rows.length = c2Block.rowCount) ∧
    blockToMaps ⟨[("a", Column.uint64Col [1, 2])], 3⟩ = .exc :=
  ⟨(rowcount_no_validation c2Block (by decide) (by decide)).1 (by decide),
   (rowcount_no_validation ⟨[("a", Column.uint64Col [1, 2])], 3⟩ (by decide)
      (by decide)).2 (by decide) (by decide)⟩

/-- C4 amended: a scalar append applied to a column of its matching kind
always succeeds and grows the column's length by exactly one; applied to a
column of any other kind, the unchecked static cast makes the call undefined
behavior — no TypeMismatch error is ever reported.  Stated for all five
scalar append NIFs. -/
theorem append_cast_semantics :
    (∀ ws v, column_uint64_append (Column.uint64Col ws) v =
        .ok (Column.uint64Col (ws ++ [v])) ∧
      (Column.uint64Col (ws ++ [v])).size = (Column.uint64Col ws).size + 1) ∧
    (∀ col (v : Nat), (¬ ∃ ws, col = Column.uint64Col ws) →
      column_uint64_append col v = .undef) ∧
    (∀ ws v, column_int64_append (Column.int64Col ws) v =
        .ok (Column.int64Col (ws ++ [v])) ∧
      (Column.int64Col (ws ++ [v])).size = (Column.int64Col ws).size + 1) ∧
    (∀ col (v : Int), (¬ ∃ ws, col = Column.int64Col ws) →
      column_int64_append col v = .undef) ∧
    (∀ ws v, column_string_append (Column.stringCol ws) v =
        .ok (Column.stringCol (ws ++ [v])) ∧
      (Column.stringCol (ws ++ [v])).size = (Column.stringCol ws).size + 1) ∧
    (∀ col (v : List Nat), (¬ ∃ ws, col = Column.stringCol ws) →
      column_string_append col v = .undef) ∧
    (∀ ws v, column_float64_append (Column.float64Col ws) v =
        .ok (Column.float64Col (ws ++ [v])) ∧
      (Column.float64Col (ws ++ [v])).size = (Column.float64Col ws).size + 1) ∧
    (∀ col (v : Nat), (¬ ∃ ws, col = Column.float64Col ws) →
      column_float64_append col v = .undef) ∧
    (∀ ws v, column_datetime_append (Column.datetimeCol ws) v =
        .ok (Column.datetimeCol (ws ++ [i64ofU64 v])) ∧
      (Column.datetimeCol (ws ++ [i64ofU64 v])).size =
        (Column.datetimeCol ws).size + 1) ∧
    (∀ col (v : Nat), (¬ ∃ ws, col = Column.datetimeCol ws) →
      column_datetime_append col v = .undef) := by
  refine ⟨?_, ?_, ?_, ?_, ?_, ?_, ?_, ?_, ?_, ?_⟩
  · intro ws v
    exact ⟨rfl, by simp [Column.size]⟩
  · intro col v h
    cases col <;> first | rfl | exact absurd ⟨_, rfl⟩ h
  · intro ws v
    exact ⟨rfl, by simp [Column.size]⟩
  · intro col v h
    cases col <;> first | rfl | exact absurd ⟨_, rfl⟩ h
  · intro ws v
    exact ⟨rfl, by simp [Column.size]⟩
  · intro col v h
    cases col <;> first | rfl | exact absurd ⟨_, rfl⟩ h
  · intro ws v
    exact ⟨rfl, by simp [Column.size]⟩
  · intro col v h
    cases col <;> first | rfl | exact absurd ⟨_, rfl⟩ h
  · intro ws v
    exact ⟨rfl, by simp [Column.size]⟩
  · intro col v h
    cases col <;> first | rfl | exact absurd ⟨_, rfl⟩ h

/-- C4 amended witness: a matching-kind append (length grows by one) and a
mismatched-kind append (undefined behavior), at concrete inputs. -/
theorem append_cast_semantics_witness :
    (column_uint64_append (Column.uint64Col [1]) 7 =
        .ok (Column.uint64Col [1, 7]) ∧
      (Column.uint64Col [1, 7]).size = (Column.uint64Col [1]).size + 1) ∧
    column_string_append (Column.uint8Col []) [104] = .undef :=
  ⟨append_cast_semantics.1 [1] 7,
   append_cast_semantics.2.2.2.2.2.1 (Column.uint8Col []) [104]
     (fun h => by rcases h with ⟨ws, h⟩; cases h)⟩

/-- C6: Bulk/scalar equivalence — for every matching-kind column and every
value sequence, the bulk append NIF leaves the column exactly as calling the
corresponding scalar append NIF once per value in sequence order (same
elements, same order, same size). -/
theorem bulk_scalar_equiv :
    (∀ (ws vs : List Nat),
      column_uint64_append_bulk (Column.uint64Col ws) vs =
        appendEach column_uint64_append (Column.uint64Col ws) vs) ∧
    (∀ (ws vs : List Int),
      column_int64_append_bulk (Column.int64Col ws) vs =
        appendEach column_int64_append (Column.int64Col ws) vs) ∧
    (∀ (ws vs : List (List Nat)),
      column_string_append_bulk (Column.stringCol ws) vs =
        appendEach column_string_append (Column.stringCol ws) vs) ∧
    (∀ (ws vs : List Nat),
      column_float64_append_bulk (Column.float64Col ws) vs =
        appendEach column_float64_append (Column.float64Col ws) vs) ∧
    (∀ (ws : List Int) (vs : List Nat),
      column_datetime_append_bulk (Column.datetimeCol ws) vs =
        appendEach column_datetime_append (Column.datetimeCol ws) vs) := by
  refine ⟨?_, ?_, ?_, ?_, ?_⟩
  · intro ws vs
    rw [appendEach_uint64]
    rfl
  · intro ws vs
    rw [appendEach_int64]
    rfl
  · intro ws vs
    rw [appendEach_string]
    rfl
  · intro ws vs
    rw [appendEach_float64]
    rfl
  · intro ws vs
    rw [appendEach_datetime]
    rfl

/-- C10: general narrowing semantics — on its matching column each narrowing
bulk path (UInt8, UInt16, UInt32, Int8, Int16, Int32, Date) always succeeds
(no carrier value is ever rejected) and stores, for each 64-bit carrier
element in order, exactly the value congruent to the carrier modulo `2^w`
that is representable in the target width `w`: unsigned widths and Date's
16-bit day count land in `[0, 2^w)`, signed widths in the two's-complement
range `[-2^(w-1), 2^(w-1))`. -/
theorem narrowing_semantics :
    (∀ (ws vs : List Nat), ∃ out,
      column_uint8_append_bulk (Column.uint8Col ws) vs =
        .ok (Column.uint8Col (ws ++ out)) ∧
      List.Forall₂ (fun s v => s < 2 ^ 8 ∧ s ≡ v [MOD 2 ^ 8]) out vs) ∧
    (∀ (ws vs : List Nat), ∃ out,
      column_uint16_append_bulk (Column.uint16Col ws) vs =
        .ok (Column.uint16Col (ws ++ out)) ∧
      List.Forall₂ (fun s v => s < 2 ^ 16 ∧ s ≡ v [MOD 2 ^ 16]) out vs) ∧
    (∀ (ws vs : List Nat), ∃ out,
      column_uint32_append_bulk (Column.uint32Col ws) vs =
        .ok (Column.uint32Col (ws ++ out)) ∧
      List.Forall₂ (fun s v => s < 2 ^ 32 ∧ s ≡ v [MOD 2 ^ 32]) out vs) ∧
    (∀ (ws vs : List Nat), ∃ out,
      column_date_append_bulk (Column.dateCol ws) vs =
        .ok (Column.dateCol (ws ++ out)) ∧
      List.Forall₂ (fun s v => s < 2 ^ 16 ∧ s ≡ v [MOD 2 ^ 16]) out vs) ∧
    (∀ (ws vs : List Int), ∃ out,
      column_int8_append_bulk (Column.int8Col ws) vs =
        .ok (Column.int8Col (ws ++ out)) ∧
      List.Forall₂ (fun s v => -(2 ^ 7 : Int) ≤ s ∧ s < 2 ^ 7 ∧
        s ≡ v [ZMOD (2 ^ 8 : Int)]) out vs) ∧
    (∀ (ws vs : List Int), ∃ out,
      column_int16_append_bulk (Column.int16Col ws) vs =
        .ok (Column.int16Col (ws ++ out)) ∧
      List.Forall₂ (fun s v => -(2 ^ 15 : Int) ≤ s ∧ s < 2 ^ 15 ∧
        s ≡ v [ZMOD (2 ^ 16 : Int)]) out vs) ∧
    (∀ (ws vs : List Int), ∃ out,
      column_int32_append_bulk (Column.int32Col ws) vs =
        .ok (Column.int32Col (ws ++ out)) ∧
      List.Forall₂ (fun s v => -(2 ^ 31 : Int) ≤ s ∧ s < 2 ^ 31 ∧
        s ≡ v [ZMOD (2 ^ 32 : Int)]) out vs) := by
  refine ⟨?_, ?_, ?_, ?_, ?_, ?_, ?_⟩
  · intro ws vs
    refine ⟨vs.map (· % 2 ^ 8), rfl, ?_⟩
    rw [List.forall₂_map_left_iff, List.forall₂_same]
    intro v _
    exact ⟨Nat.mod_lt _ (by norm_num), Nat.mod_mod_of_dvd v dvd_rfl⟩
  · intro ws vs
    refine ⟨vs.map (· % 2 ^ 16), rfl, ?_⟩
    rw [List.forall₂_map_left_iff, List.forall₂_same]
    intro v _
    exact ⟨Nat.mod_lt _ (by norm_num), Nat.mod_mod_of_dvd v dvd_rfl⟩
  · intro ws vs
    refine ⟨vs.map (· % 2 ^ 32), rfl, ?_⟩
    rw [List.forall₂_map_left_iff, List.forall₂_same]
    intro v _
    exact ⟨Nat.mod_lt _ (by norm_num), Nat.mod_mod_of_dvd v dvd_rfl⟩
  · intro ws vs
    refine ⟨vs.map (· % 2 ^ 16), rfl, ?_⟩
    rw [List.forall₂_map_left_iff, List.forall₂_same]
    intro v _
    exact ⟨Nat.mod_lt _ (by norm_num), Nat.mod_mod_of_dvd v dvd_rfl⟩
  · intro ws vs
    refine ⟨vs.map (sCast 8), rfl, ?_⟩
    rw [List.forall₂_map_left_iff, List.forall₂_same]
    intro v _
    refine ⟨?_, ?_, ?_⟩ <;> simp only [sCast, Int.ModEq] <;> omega
  · intro ws vs
    refine ⟨vs.map (sCast 16), rfl, ?_⟩
    rw [List.forall₂_map_left_iff, List.forall₂_same]
    intro v _
    refine ⟨?_, ?_, ?_⟩ <;> simp only [sCast, Int.ModEq] <;> omega
  · intro ws vs
    refine ⟨vs.map (sCast 32), rfl, ?_⟩
    rw [List.forall₂_map_left_iff, List.forall₂_same]
    intro v _
    refine ⟨?_, ?_, ?_⟩ <;> simp only [sCast, Int.ModEq] <;> omega

/-- C8: materialization ordering — a materialized block has exactly its
declared row count of rows, the row at index `r` is the projection of every
column at index `r` with the columns in the block's declared order, and
`client_select` returns the blocks' row lists concatenated in arrival order
(append semantics, never reordered or merged by content). -/
theorem materialize_ordering :
    (∀ (b : Block) rows, blockToMaps b = .ok rows →
      rows.length = b.rowCount ∧
      ∀ r, r < b.rowCount → rows.get? r = rowAtSpec b r) ∧
    (∀ (bs : List Block) (rss : List (List Row)),
      List.Forall₂ (fun b rs => blockToMaps b = .ok rs) bs rss →
      clientSelect bs = .ok rss.join) := by
  constructor
  · intro b rows h
    obtain ⟨cols, rc⟩ := b
    rw [blockToMaps_eqn] at h
    by_cases h0 : rc = 0
    · subst h0
      rw [if_pos rfl] at h
      have h2 : Outcome.ok ([] : List Row) = Outcome.ok rows := h
      injection h2 with h2
      subst h2
      exact ⟨rfl, fun r hr => absurd hr (by simp)⟩
    · rw [if_neg h0] at h
      cases hext : extractAll cols rc with
      | none =>
          rw [hext] at h
          exact absurd h (by simp)
      | some cd =>
          rw [hext] at h
          dsimp only at h
          by_cases hnd : (cols.map Prod.fst).Nodup
          · rw [if_pos hnd] at h
            cases hbr : buildRows cd rc with
            | none =>
                rw [hbr] at h
                exact absurd h (by simp)
            | some rows0 =>
                rw [hbr] at h
                have h2 : Outcome.ok rows0 = Outcome.ok rows := h
                injection h2 with h2
                subst h2
                constructor
                · have hl := omap_length hbr
                  simpa using hl
                · intro r hr
                  have hrow := omap_get hbr r (List.get?_range hr)
                  rw [hrow]
                  exact extract_transpose hext hr
          · rw [if_neg hnd] at h
            exact absurd h (by simp)
  · intro bs rss h
    have := clientSelectLoop_ok h []
    simpa using this

/-- C8 witness: a two-row block materialized row-by-row in declared column
order, and two blocks concatenated in arrival order. -/
theorem materialize_ordering_witness :
    ([[("a", Term.uintT 1)], [("a", Term.uintT 2)]] : List Row).length =
        (Block.mk [("a", Column.uint64Col [1, 2])] 2).rowCount ∧
    ([[("a", Term.uintT 1)], [("a", Term.uintT 2)]] : List Row).get? 1 =
        rowAtSpec (Block.mk [("a", Column.uint64Col [1, 2])] 2) 1 ∧
    clientSelect [Block.mk [("a", Column.uint64Col [1, 2])] 2,
        Block.mk [("a", Column.uint64Col [3])] 1] =
      .ok ([[[("a", Term.uintT 1)], [("a", Term.uintT 2)]],
            [[("a", Term.uintT 3)]]] : List (List Row)).join :=
  ⟨(materialize_ordering.1 _ _ (by decide)).1,
   (materialize_ordering.1 _ _ (by decide)).2 1 (by decide),
   materialize_ordering.2 _ _ (.cons (by decide) (.cons (by decide) .nil))⟩

/-- C9 amended: `client_select` materializes blocks in arrival order but does
not emit anything incrementally — the callback appends every block's rows to
a single accumulator, so after the k-th block the buffer holds the running
total of all rows materialized so far, and the whole result is returned to
the caller in one final batch; peak buffered rows equal the entire result
set, not one block. -/
theorem select_accumulates_all (bs : List Block) (rss : List (List Row))
    (h : List.Forall₂ (fun b rs => blockToMaps b = .ok rs) bs rss) :
    bufferSizes bs = partialSumsFrom 0 (rss.map List.length) ∧
    clientSelect bs = .ok rss.join :=
  ⟨by simpa using clientSelectTrace_ok h [],
   by simpa using clientSelectLoop_ok h []⟩

/-- C9 amended witness: with blocks of 2 rows and 1 row the buffer passes
through sizes 2 then 3 (running totals), and the result is one batch of all 3
rows. -/
theorem select_accumulates_all_witness :
    bufferSizes [c9b1, c9b2] =
      partialSumsFrom 0
        (([[[("a", Term.uintT 1)], [("a", Term.uintT 2)]],
           [[("a", Term.uintT 3)]]] : List (List Row)).map List.length) ∧
    clientSelect [c9b1, c9b2] =
      .ok ([[[("a", Term.uintT 1)], [("a", Term.uintT 2)]],
            [[("a", Term.uintT 3)]]] : List (List Row)).join :=
  select_accumulates_all [c9b1, c9b2]
    [[[("a", Term.uintT 1)], [("a", Term.uintT 2)]], [[("a", Term.uintT 3)]]]
    (.cons (by decide) (.cons (by decide) .nil))

/-- C9 counterexample: with two ok blocks of 2 rows and 1 row, the rows
buffered by `client_select` reach 3 after the second block — more than any
single block's materialized rows — so peak memory is not bounded by one
block's rows. -/
theorem buffering_cex :
    blockToMaps c9b1 = .ok [[("a", Term.uintT 1)], [("a", Term.uintT 2)]] ∧
    blockToMaps c9b2 = .ok [[("a", Term.uintT 3)]] ∧
    bufferSizes [c9b1, c9b2] = [2, 3] ∧
    ¬ (3 : Nat) ≤ 2 :=
  ⟨by decide, by decide, by decide, by decide⟩

end Natch
